import Mathlib

/-!
Verification development for the `ssui` interactive SSH-host picker.

The Rust sources (`src/app.rs`, `src/main.rs`, `src/ui.rs`) are shallowly
embedded below: Rust `String`s are modelled as `List Char`, `u32` as `Nat`
(values produced by the numeric parser are `< 2^32`), fallible code returns
`Except`, and a possible runtime panic is modelled by an outer `Option`
(`none` = panic).
-/

deriving instance DecidableEq for Except

namespace Ssui

/-- Rust `char::is_whitespace`: the Unicode `White_Space` code points. -/
def isWS (c : Char) : Bool :=
  let n := c.toNat
  n == 9 || n == 10 || n == 11 || n == 12 || n == 13 || n == 32 ||
  n == 0x85 || n == 0xA0 || n == 0x1680 ||
  (0x2000 ≤ n && n ≤ 0x200A) || n == 0x2028 || n == 0x2029 ||
  n == 0x202F || n == 0x205F || n == 0x3000

/-- Rust `str::trim_end` on a character list. -/
def trimEnd (l : List Char) : List Char :=
  ((l.reverse).dropWhile isWS).reverse

/-- Rust `str::trim` (strip leading and trailing `char::is_whitespace`). -/
def trim (l : List Char) : List Char :=
  trimEnd (l.dropWhile isWS)

/-- Split a text at each `'\n'` (the pieces, newline separators removed).
Always returns at least one (possibly empty) piece, like the raw split
underlying Rust `str::lines`. -/
def splitNl : List Char → List (List Char)
  | [] => [[]]
  | c :: rest =>
    if c = '\n' then [] :: splitNl rest
    else
      match splitNl rest with
      | [] => [[c]]
      | l :: ls => (c :: l) :: ls

/-- Strip one trailing `'\r'` (for the `"\r\n"` line terminator of
Rust `str::lines`). -/
def stripCR (l : List Char) : List Char :=
  if l.getLast? = some '\r' then l.dropLast else l

/-- Post-processing of the raw `'\n'`-split for Rust `str::lines`:
every piece that was terminated by a `'\n'` has one trailing `'\r'`
removed; a final empty piece (text ending in `'\n'`, or empty text)
produces no line, while a final non-empty piece is kept verbatim. -/
def linesPost : List (List Char) → List (List Char)
  | [] => []
  | [l] => if l = [] then [] else [l]
  | l :: ls => stripCR l :: linesPost ls

/-- Rust `str::lines` on a character list. -/
def rustLines (s : List Char) : List (List Char) :=
  linesPost (splitNl s)

/-- Rust `line.splitn(2, char::is_whitespace)`: at most two parts, split
at the first whitespace character; the second part is everything after
that single character (later whitespace of a run stays in the value). -/
def splitn2ws : List Char → List (List Char)
  | [] => [[]]
  | c :: rest =>
    if isWS c then [[], rest]
    else
      match splitn2ws rest with
      | [] => [[c]]
      | l :: ls => (c :: l) :: ls

/-- Rust `str::split_whitespace` (auxiliary accumulator holds the current
token reversed). -/
def splitWSAux : List Char → List Char → List (List Char)
  | acc, [] => if acc = [] then [] else [acc.reverse]
  | acc, c :: rest =>
    if isWS c then
      if acc = [] then splitWSAux [] rest
      else acc.reverse :: splitWSAux [] rest
    else splitWSAux (c :: acc) rest

/-- Rust `str::split_whitespace` on a character list. -/
def splitWS (l : List Char) : List (List Char) :=
  splitWSAux [] l

/-- Rust `str::parse::<u32>()` (`u32::from_str`): optional leading `'+'`,
then one or more ASCII digits, rejecting overflow past `2^32 - 1`.
Machine integers are modelled as `Nat` with the explicit bound check. -/
def parseU32 (s : List Char) : Option Nat :=
  let digits := if s.head? = some '+' then s.tail else s
  if digits = [] then none
  else if digits.all Char.isDigit then
    let v := digits.foldl (fun a c => a * 10 + (c.toNat - 48)) 0
    if v < 4294967296 then some v else none
  else none

/-- `struct Host` of `src/app.rs` (Rust `String` as `List Char`,
`u32` as `Nat`). -/
structure Host where
  host_id : List Char
  host_name : Option (List Char)
  port : Option Nat
  user : Option (List Char)
  proxy_jump : Option (List Char)
  local_forward : Option (List Char)
  id_file : Option (List Char)
  expanded : Bool
deriving DecidableEq

/-- `enum SshSetting` of `src/app.rs`. -/
inductive SshSetting
  | ProxyJump
  | HostName
  | User
  | Identityfile
  | LocalForward
  | Port
deriving DecidableEq

/-- `SshSetting::from_str`: the key is lowercased, then matched against
the six recognized setting names.  Rust lowercases with the full Unicode
mapping; on the ASCII keywords involved this agrees with `Char.toLower`. -/
def SshSetting.from_str (s : List Char) : Option SshSetting :=
  let l := s.map Char.toLower
  if l = "port".data then some .Port
  else if l = "hostname".data then some .HostName
  else if l = "proxyjump".data then some .ProxyJump
  else if l = "localforward".data then some .LocalForward
  else if l = "identityfile".data then some .Identityfile
  else if l = "user".data then some .User
  else none

/-- `enum SshConfError` of `src/app.rs`.  The `Io` variant wraps an
external `std::io::Error`; `parse` itself only ever produces
`ParseError`. -/
inductive SshConfError
  | Io
  | ParseError (line : Nat) (msg : String)
deriving DecidableEq

/-- ratatui `ListState`: a scroll offset and an optional selected index. -/
structure ListState where
  offset : Nat
  selected : Option Nat
deriving DecidableEq

/-- `ListState::default()`. -/
def ListState.default : ListState := { offset := 0, selected := none }

/-- `struct SshConf` of `src/app.rs`. -/
structure SshConf where
  confs : List Host
  state : ListState
deriving DecidableEq

/-- The assignment `match setting { ... }` in the settings branch of
`SshConf::parse`: store the raw value in the matching field
(`Port` stores `parts[1].parse().ok()`). -/
def applySetting (s : SshSetting) (h : Host) (v : List Char) : Host :=
  match s with
  | .ProxyJump => { h with proxy_jump := some v }
  | .HostName => { h with host_name := some v }
  | .User => { h with user := some v }
  | .Identityfile => { h with id_file := some v }
  | .LocalForward => { h with local_forward := some v }
  | .Port => { h with port := parseU32 v }

/-- The literal `host_str = "Host "` of `SshConf::parse`. -/
def hostKW : List Char := "Host ".data

/-- The `for (line_num, line) in content.lines().enumerate()` loop of
`SshConf::parse`.  `n` is the current 0-based line number, the pair of
accumulators is `(confs, host)`.  The outer `Option` models a Rust
panic: `none` corresponds to the `patterns.first().unwrap()` on a `Host`
line whose remainder has no token (unreachable, since lines are
trimmed).  The result carries the final `(confs, host)` pair. -/
def parseLoop : Nat → List (List Char) → List Host → Option Host →
    Option (Except SshConfError (List Host × Option Host))
  | _, [], confs, host => some (.ok (confs, host))
  | n, raw :: rest, confs, host =>
    let line := trim raw
    -- Skip empty lines and comments
    if line = [] ∨ line.head? = some '#' then
      parseLoop (n + 1) rest confs host
    -- Handle host declarations
    else if hostKW <+: line then
      let confs1 := confs ++ host.toList
      let patterns := splitWS (line.drop 5)
      match patterns.head? with
      | none => none
      | some hid =>
        parseLoop (n + 1) rest confs1
          (some ⟨hid, none, none, none, none, none, none, false⟩)
    -- Handle settings
    else
      match host with
      | some h =>
        match splitn2ws line with
        | [k, v] =>
          match SshSetting.from_str k with
          | some s => parseLoop (n + 1) rest confs (some (applySetting s h v))
          | none => some (.error (.ParseError (n + 1) "Invalid config line format"))
        | _ => some (.error (.ParseError (n + 1) "Invalid config line format"))
      | none => some (.error (.ParseError (n + 1) "Setting outside of Host block"))

/-- `SshConf::parse` of `src/app.rs`: run the line loop, then append the
still-open host, if any.  `none` models a panic (see `parseLoop`). -/
def SshConf.parse (content : List Char) : Option (Except SshConfError SshConf) :=
  match parseLoop 0 (rustLines content) [] none with
  | none => none
  | some (.error e) => some (.error e)
  | some (.ok (confs, host)) =>
      some (.ok { confs := confs ++ host.toList, state := ListState.default })

/-! ### The selection model

The navigation operations are invoked by `App::handle_keys` on
`self.confs.state`, a ratatui `ListState`.  The ratatui implementation is
an external dependency whose sources are not part of this repository, so
the operations are modelled from the spec (§4.2). -/

/-- Modelled from the spec: `select_next` of the SelectionModel (the
ratatui `ListState::select_next` called by `App::handle_keys` is not in
the repository).  "if cursor is `None`, moves to index 0 (if non-empty);
otherwise advances to `min(cursor+1, length-1)` — does not wrap"; no-op
on an empty list. -/
def select_next (len : Nat) (cur : Option Nat) : Option Nat :=
  if len = 0 then cur
  else
    match cur with
    | none => some 0
    | some i => some (min (i + 1) (len - 1))

/-- Modelled from the spec: `select_previous` — "symmetric, does not go
below 0; `None` stays `None` only on an empty list" (from `None` on a
non-empty list it enters at the opposite end, index `length-1`). -/
def select_previous (len : Nat) (cur : Option Nat) : Option Nat :=
  if len = 0 then cur
  else
    match cur with
    | none => some (len - 1)
    | some i => some (i - 1)

/-- Modelled from the spec: `select_first` — "jump to index 0; no-op on
empty list". -/
def select_first (len : Nat) (cur : Option Nat) : Option Nat :=
  if len = 0 then cur else some 0

/-- Modelled from the spec: `select_last` — "jump to index length-1;
no-op on empty list". -/
def select_last (len : Nat) (cur : Option Nat) : Option Nat :=
  if len = 0 then cur else some (len - 1)

/-- `clear_selection` (`self.confs.state.select(None)` in
`App::handle_keys`): sets the cursor to `None` unconditionally. -/
def clear_selection (_cur : Option Nat) : Option Nat := none

/-- The navigation operations dispatched by `App::handle_keys`. -/
inductive NavOp
  | next
  | previous
  | first
  | last
  | clear
  | toggleExpand
deriving DecidableEq

/-- Replace the selected index of an `SshConf`'s list state. -/
def SshConf.withSelected (c : SshConf) (sel : Option Nat) : SshConf :=
  { c with state := { c.state with selected := sel } }

/-- One navigation key press applied to the collection
(`App::handle_keys` / `App::expand`).  `toggleExpand` models
`self.confs.confs[i].expanded = !self.confs.confs[i].expanded`, whose
indexing panics (`none`) when `i` is out of bounds. -/
def applyNav : NavOp → SshConf → Option SshConf
  | .next, c => some (c.withSelected (select_next c.confs.length c.state.selected))
  | .previous, c => some (c.withSelected (select_previous c.confs.length c.state.selected))
  | .first, c => some (c.withSelected (select_first c.confs.length c.state.selected))
  | .last, c => some (c.withSelected (select_last c.confs.length c.state.selected))
  | .clear, c => some (c.withSelected (clear_selection c.state.selected))
  | .toggleExpand, c =>
    match c.state.selected with
    | none => some c
    | some i =>
      if h : i < c.confs.length then
        some { c with
          confs := c.confs.set i
            (let old := c.confs.get ⟨i, h⟩; { old with expanded := !old.expanded }) }
      else none

/-- A sequence of navigation key presses (`none` = some press panicked). -/
def applyNavs (ops : List NavOp) (c : SshConf) : Option SshConf :=
  ops.foldlM (fun c op => applyNav op c) c

/-- The cursor invariant of the spec: the selected index, if present,
indexes a valid element of the host list. -/
def SelInv (c : SshConf) : Prop :=
  match c.state.selected with
  | none => True
  | some i => i < c.confs.length

instance (c : SshConf) : Decidable (SelInv c) := by
  unfold SelInv
  exact match c.state.selected with
  | none => inferInstanceAs (Decidable True)
  | some i => Nat.decLt i c.confs.length

/-- Outcome of the `Enter` branch of `App::handle_keys` together with
`App::run`'s use of `selected_id`. -/
inductive ConfirmResult
  | panic
  | noSelection
  | chosen (id : List Char)
deriving DecidableEq

/-- The `KeyCode::Enter` branch of `App::handle_keys`:
`if let Some(i) = self.confs.state.selected() { self.selected_id =
Some(self.confs.confs[i].host_id.clone()) }` — the indexing carries no
bounds check, so a cursor at or past the list length panics; with no
cursor, `App::run` returns the "No ssh config selected!" error. -/
def App.confirm (c : SshConf) : ConfirmResult :=
  match c.state.selected with
  | none => .noSelection
  | some i =>
    if h : i < c.confs.length then .chosen (c.confs.get ⟨i, h⟩).host_id
    else .panic

/-! ### The entry point (`src/main.rs`) -/

/-- Whether raw mode and the alternate screen are currently active.  The
crossterm mode-switching calls are external; the state they toggle is
tracked explicitly. -/
structure TermState where
  raw_mode : Bool
  alt_screen : Bool
deriving DecidableEq

/-- How `main` finishes: with an `Err` (non-zero exit), normally
(optionally after handing control to `ssh` with the chosen id), or in a
panic. -/
inductive MainExit
  | errExit
  | okExit (launched : Option (List Char))
  | panicked
deriving DecidableEq

/-- `main` of `src/main.rs`, as a function of the configuration file's
content and of the (externally determined) outcome of the interactive
`App::run` loop.  The external crossterm/terminal calls are modelled as
succeeding; `color_eyre::install` likewise.  Faithful to the source
order: raw mode and the alternate screen are entered first, then
`app.read_ssh_conf()?` parses the file — the `?` propagates an `Err`
out of `main` immediately — and only after `app.run(..)` returns are
`disable_raw_mode` / `LeaveAlternateScreen` executed; a run error is
dropped by the `if let Ok(id)` and `main` returns `Ok(())`. -/
def mainModel (content : List Char) (run_result : Except Unit (List Char)) :
    TermState × MainExit :=
  let ts : TermState := { raw_mode := true, alt_screen := true }
  match SshConf.parse content with
  | none => (ts, .panicked)
  | some (.error _) => (ts, .errExit)
  | some (.ok _) =>
    let ts : TermState := { raw_mode := false, alt_screen := false }
    match run_result with
    | .ok id => (ts, .okExit (some id))
    | .error _ => (ts, .okExit none)

/-! ### Serialization for the round-trip property (§8)

The spec's round-trip property speaks of "text generated by serializing N
HostRecords back into `Host`/setting-line form".  The serializer below
follows that description (it is not the `Display` impl, whose lowercase
`host`/`none` dump is a debugging representation). -/

/-- Decimal digit character (`d < 10`). -/
def digitChar (d : Nat) : Char :=
  match d with
  | 0 => '0' | 1 => '1' | 2 => '2' | 3 => '3' | 4 => '4'
  | 5 => '5' | 6 => '6' | 7 => '7' | 8 => '8' | _ => '9'

/-- Decimal representation of a natural number, most significant digit
first (no leading zeros; `0` is `"0"`). -/
def natToDigits (n : Nat) : List Char :=
  if _h : n < 10 then [digitChar n]
  else natToDigits (n / 10) ++ [digitChar (n % 10)]
decreasing_by exact Nat.div_lt_self (by omega) (by omega)

/-- The canonical serialized key of each setting. -/
def keyOf : SshSetting → List Char
  | .HostName => "HostName".data
  | .Port => "Port".data
  | .User => "User".data
  | .ProxyJump => "ProxyJump".data
  | .LocalForward => "LocalForward".data
  | .Identityfile => "IdentityFile".data

/-- One `(setting, serialized value)` entry per present optional field,
in the fixed field order of the spec (§6). -/
def settingEntries (h : Host) : List (SshSetting × List Char) :=
  (match h.host_name with | some v => [(.HostName, v)] | none => []) ++
  (match h.port with | some p => [(.Port, natToDigits p)] | none => []) ++
  (match h.user with | some v => [(.User, v)] | none => []) ++
  (match h.proxy_jump with | some v => [(.ProxyJump, v)] | none => []) ++
  (match h.local_forward with | some v => [(.LocalForward, v)] | none => []) ++
  (match h.id_file with | some v => [(.Identityfile, v)] | none => [])

/-- The serialized lines of one host: a `Host <host_id>` line followed by
one `<Key> <value>` line per present optional field. -/
def hostLines (h : Host) : List (List Char) :=
  (hostKW ++ h.host_id) ::
    (settingEntries h).map (fun e => keyOf e.1 ++ ' ' :: e.2)

/-- Serialize a list of host records into `Host`/setting-line text, one
`'\n'`-terminated line each. -/
def serializeHosts (hs : List Host) : List Char :=
  (((hs.map hostLines).flatten).map (fun l => l ++ ['\n'])).flatten

/-- A serializable host identifier: non-empty, no whitespace. -/
def goodTok (s : List Char) : Bool :=
  !s.isEmpty && s.all (fun c => !isWS c)

/-- A serializable setting value: non-empty, no `'\n'`, and no trailing
whitespace (a trailing-whitespace value would be cut by the parser's
line trim). -/
def goodVal (s : List Char) : Bool :=
  !s.isEmpty && !s.contains '\n' &&
    (match s.getLast? with | some c => !isWS c | none => false)

/-- A host record that serializes back into well-formed config text:
single-token id, serializable present values, `u32`-range port, and the
(unserialized, view-only) `expanded` flag at its parse-time default. -/
def WellFormedHost (h : Host) : Prop :=
  (goodTok h.host_id &&
   h.host_name.all goodVal &&
   h.port.all (fun p => decide (p < 4294967296)) &&
   h.user.all goodVal &&
   h.proxy_jump.all goodVal &&
   h.local_forward.all goodVal &&
   h.id_file.all goodVal &&
   !h.expanded) = true

instance (h : Host) : Decidable (WellFormedHost h) := by
  unfold WellFormedHost; infer_instance

/-! ## Helper lemmas -/

theorem mem_of_head? {l : List Char} {c : Char} (h : l.head? = some c) : c ∈ l := by
  cases l with
  | nil => simp at h
  | cons a t =>
    simp only [List.head?_cons, Option.some.injEq] at h
    exact h ▸ List.mem_cons_self a t

theorem mem_of_getLast? {l : List Char} {c : Char} (h : l.getLast? = some c) : c ∈ l := by
  induction l with
  | nil => simp at h
  | cons a t ih =>
    cases t with
    | nil =>
      simp only [List.getLast?_singleton, Option.some.injEq] at h
      exact h ▸ List.mem_cons_self a []
    | cons b t2 =>
      rw [List.getLast?_cons_cons] at h
      exact List.mem_cons_of_mem a (ih h)

theorem getLast?_cons_of_ne_nil {a : Char} {l : List Char} (h : l ≠ []) :
    (a :: l).getLast? = l.getLast? := by
  cases l with
  | nil => exact absurd rfl h
  | cons b t => exact List.getLast?_cons_cons

theorem dropWhile_ws_eq_self {l : List Char}
    (h : ∀ c, l.head? = some c → isWS c = false) :
    l.dropWhile isWS = l := by
  cases l with
  | nil => rfl
  | cons c t => simp [List.dropWhile_cons, h c rfl]

theorem trimEnd_eq_self {l : List Char}
    (h : ∀ c, l.getLast? = some c → isWS c = false) :
    trimEnd l = l := by
  unfold trimEnd
  rw [dropWhile_ws_eq_self, List.reverse_reverse]
  intro c hc
  exact h c (by rwa [List.head?_reverse] at hc)

theorem trim_eq_self {l : List Char}
    (hh : ∀ c, l.head? = some c → isWS c = false)
    (hl : ∀ c, l.getLast? = some c → isWS c = false) :
    trim l = l := by
  unfold trim
  rw [dropWhile_ws_eq_self hh, trimEnd_eq_self hl]

theorem trim_eq_self_of_no_ws {l : List Char}
    (h : ∀ c ∈ l, isWS c = false) : trim l = l :=
  trim_eq_self (fun c hc => h c (mem_of_head? hc)) (fun c hc => h c (mem_of_getLast? hc))

theorem splitn2ws_no_ws {l : List Char} (h : ∀ c ∈ l, isWS c = false) :
    splitn2ws l = [l] := by
  induction l with
  | nil => rfl
  | cons c t ih =>
    have hc := h c (List.mem_cons_self c t)
    have ht : ∀ x ∈ t, isWS x = false := fun x hx => h x (List.mem_cons_of_mem c hx)
    simp [splitn2ws, hc, ih ht]

theorem splitn2ws_key_val {key v : List Char} {c : Char}
    (hk : ∀ a ∈ key, isWS a = false) (hc : isWS c = true) :
    splitn2ws (key ++ c :: v) = [key, v] := by
  induction key with
  | nil => simp [splitn2ws, hc]
  | cons a t ih =>
    have ha := hk a (List.mem_cons_self a t)
    have ht : ∀ x ∈ t, isWS x = false := fun x hx => hk x (List.mem_cons_of_mem a hx)
    simp [splitn2ws, ha, ih ht]

theorem splitWSAux_no_ws : ∀ {t : List Char}, (∀ c ∈ t, isWS c = false) →
    ∀ acc : List Char, acc ≠ [] ∨ t ≠ [] → splitWSAux acc t = [acc.reverse ++ t] := by
  intro t
  induction t with
  | nil =>
    intro _ acc hne
    rcases hne with hne | hne
    · simp [splitWSAux, hne]
    · exact absurd rfl hne
  | cons c t ih =>
    intro h acc _
    have hc := h c (List.mem_cons_self c t)
    have ht : ∀ x ∈ t, isWS x = false := fun x hx => h x (List.mem_cons_of_mem c hx)
    rw [splitWSAux, if_neg (by simp [hc]),
      ih ht (c :: acc) (Or.inl (List.cons_ne_nil c acc))]
    simp

theorem splitWS_single {t : List Char} (hne : t ≠ []) (h : ∀ c ∈ t, isWS c = false) :
    splitWS t = [t] := by
  unfold splitWS
  rw [splitWSAux_no_ws h [] (Or.inr hne)]
  rfl

theorem hostKW_chars : hostKW = ['H', 'o', 's', 't', ' '] := rfl

/-! ### Stepping lemmas for the parse loop -/

theorem parseLoop_skip {raw : List Char}
    (h : trim raw = [] ∨ (trim raw).head? = some '#')
    (n : Nat) (rest : List (List Char)) (confs : List Host) (host : Option Host) :
    parseLoop n (raw :: rest) confs host = parseLoop (n + 1) rest confs host := by
  rw [parseLoop.eq_def]
  simp only [if_pos h]

theorem parseLoop_orphan {raw : List Char}
    (h1 : trim raw ≠ []) (h2 : (trim raw).head? ≠ some '#')
    (h3 : ¬ hostKW <+: trim raw)
    (n : Nat) (rest : List (List Char)) (confs : List Host) :
    parseLoop n (raw :: rest) confs none =
      some (.error (.ParseError (n + 1) "Setting outside of Host block")) := by
  rw [parseLoop.eq_def]
  simp only [if_neg (not_or_intro h1 h2), if_neg h3]

theorem parseLoop_host {id : List Char}
    (hne : id ≠ []) (hws : ∀ c ∈ id, isWS c = false)
    (n : Nat) (rest : List (List Char)) (confs : List Host) (host : Option Host) :
    parseLoop n ((hostKW ++ id) :: rest) confs host =
      parseLoop (n + 1) rest (confs ++ host.toList)
        (some ⟨id, none, none, none, none, none, none, false⟩) := by
  have htrim : trim (hostKW ++ id) = hostKW ++ id := by
    apply trim_eq_self
    · intro c hc
      rw [List.head?_append_of_ne_nil _ (by rw [hostKW_chars]; simp)] at hc
      rw [hostKW_chars] at hc
      simp only [List.head?_cons, Option.some.injEq] at hc
      rw [← hc]; decide
    · intro c hc
      rw [List.getLast?_append_of_ne_nil _ hne] at hc
      exact hws c (mem_of_getLast? hc)
  rw [parseLoop.eq_def]
  simp only [htrim]
  rw [if_neg (by
    rw [hostKW_chars]
    rintro (h | h)
    · simp at h
    · rw [List.head?_append_of_ne_nil _ (by simp)] at h
      simp at h), if_pos (List.prefix_append hostKW id)]
  have hdrop : (hostKW ++ id).drop 5 = id := List.drop_left hostKW id
  rw [hdrop, splitWS_single hne hws]
  rfl

theorem parseLoop_setting {k v : List Char} {s : SshSetting}
    (hk_ne : k ≠ []) (hk_ws : ∀ c ∈ k, isWS c = false) (hk_hash : k.head? ≠ some '#')
    (hk_str : SshSetting.from_str k = some s)
    (hk_host : ¬ hostKW <+: (k ++ ' ' :: v))
    (hv_ne : v ≠ []) (hv_last : ∀ c, v.getLast? = some c → isWS c = false)
    (n : Nat) (rest : List (List Char)) (confs : List Host) (h0 : Host) :
    parseLoop n ((k ++ ' ' :: v) :: rest) confs (some h0) =
      parseLoop (n + 1) rest confs (some (applySetting s h0 v)) := by
  have htrim : trim (k ++ ' ' :: v) = k ++ ' ' :: v := by
    apply trim_eq_self
    · intro c hc
      rw [List.head?_append_of_ne_nil _ hk_ne] at hc
      exact hk_ws c (mem_of_head? hc)
    · intro c hc
      rw [List.getLast?_append_of_ne_nil _ (List.cons_ne_nil ' ' v),
        getLast?_cons_of_ne_nil hv_ne] at hc
      exact hv_last c hc
  rw [parseLoop.eq_def]
  simp only [htrim]
  rw [if_neg (by
    rintro (h | h)
    · simp [hk_ne] at h
    · rw [List.head?_append_of_ne_nil _ hk_ne] at h
      exact hk_hash h), if_neg hk_host,
    splitn2ws_key_val hk_ws (by decide)]
  show (match SshSetting.from_str k with
    | some s => parseLoop (n + 1) rest confs (some (applySetting s h0 v))
    | none => some (Except.error (SshConfError.ParseError (n + 1) "Invalid config line format"))) = _
  rw [hk_str]

theorem no_ws_not_hostKW {l : List Char} (h : ∀ c ∈ l, isWS c = false) :
    ¬ hostKW <+: l := by
  intro hpre
  obtain ⟨t, ht⟩ := hpre
  have hmem : ' ' ∈ l := by rw [← ht, hostKW_chars]; simp
  exact absurd (h ' ' hmem) (by decide)

theorem keyOf_facts (s : SshSetting) :
    keyOf s ≠ [] ∧ (∀ c ∈ keyOf s, isWS c = false) ∧ (keyOf s).head? ≠ some '#' ∧
      SshSetting.from_str (keyOf s) = some s := by
  cases s <;> exact ⟨by decide, by decide, by decide, by decide⟩

theorem keyOf_not_hostKW (s : SshSetting) (v : List Char) :
    ¬ hostKW <+: (keyOf s ++ ' ' :: v) := by
  intro hpre
  obtain ⟨t, ht⟩ := hpre
  rw [hostKW_chars] at ht
  cases s <;> simp [keyOf] at ht

theorem parseLoop_orphan_after_skips {l : List Char}
    (h1 : trim l ≠ []) (h2 : (trim l).head? ≠ some '#') (h3 : ¬ hostKW <+: trim l)
    (rest : List (List Char)) (confs : List Host) :
    ∀ pre : List (List Char), (∀ r ∈ pre, trim r = [] ∨ (trim r).head? = some '#') →
    ∀ n : Nat, parseLoop n (pre ++ l :: rest) confs none =
      some (.error (.ParseError (n + pre.length + 1) "Setting outside of Host block")) := by
  intro pre
  induction pre with
  | nil =>
    intro _ n
    exact parseLoop_orphan h1 h2 h3 n rest confs
  | cons r t ih =>
    intro hpre n
    have hr := hpre r (List.mem_cons_self r t)
    have ht : ∀ x ∈ t, trim x = [] ∨ (trim x).head? = some '#' :=
      fun x hx => hpre x (List.mem_cons_of_mem r hx)
    rw [List.cons_append, parseLoop_skip hr, ih ht (n + 1)]
    have heq : n + 1 + t.length + 1 = n + (r :: t).length + 1 := by
      simp [List.length_cons]; omega
    rw [heq]

/-! ### Navigation lemmas -/

theorem applyNav_inv {c : SshConf} (hinv : SelInv c) (op : NavOp) :
    ∃ c', applyNav op c = some c' ∧ SelInv c' ∧ c'.confs.length = c.confs.length := by
  cases op with
  | next =>
    refine ⟨_, rfl, ?_, rfl⟩
    by_cases h0 : c.confs.length = 0
    · simp only [select_next, if_pos h0]
      exact hinv
    · simp only [select_next, if_neg h0]
      cases hsel : c.state.selected with
      | none => show (0 : Nat) < c.confs.length; omega
      | some i => show min (i + 1) (c.confs.length - 1) < c.confs.length; omega
  | previous =>
    refine ⟨_, rfl, ?_, rfl⟩
    by_cases h0 : c.confs.length = 0
    · simp only [select_previous, if_pos h0]
      exact hinv
    · simp only [select_previous, if_neg h0]
      cases hsel : c.state.selected with
      | none => show c.confs.length - 1 < c.confs.length; omega
      | some i =>
        have hlt : i < c.confs.length := by
          unfold SelInv at hinv; rw [hsel] at hinv; exact hinv
        show i - 1 < c.confs.length
        omega
  | first =>
    refine ⟨_, rfl, ?_, rfl⟩
    by_cases h0 : c.confs.length = 0
    · simp only [select_first, if_pos h0]
      exact hinv
    · simp only [select_first, if_neg h0]
      show (0 : Nat) < c.confs.length; omega
  | last =>
    refine ⟨_, rfl, ?_, rfl⟩
    by_cases h0 : c.confs.length = 0
    · simp only [select_last, if_pos h0]
      exact hinv
    · simp only [select_last, if_neg h0]
      show c.confs.length - 1 < c.confs.length; omega
  | clear =>
    exact ⟨_, rfl, trivial, rfl⟩
  | toggleExpand =>
    simp only [applyNav]
    cases hsel : c.state.selected with
    | none => exact ⟨c, rfl, hinv, rfl⟩
    | some i =>
      have hlt : i < c.confs.length := by
        unfold SelInv at hinv; rw [hsel] at hinv; exact hinv
      simp only [dif_pos hlt]
      refine ⟨_, rfl, ?_, by simp⟩
      unfold SelInv
      simp only [hsel, List.length_set]
      exact hlt

theorem applyNavs_inv (ops : List NavOp) : ∀ {c : SshConf}, SelInv c →
    ∃ c', applyNavs ops c = some c' ∧ SelInv c' ∧ c'.confs.length = c.confs.length := by
  induction ops with
  | nil => intro c hinv; exact ⟨c, rfl, hinv, rfl⟩
  | cons op t ih =>
    intro c hinv
    obtain ⟨c1, h1, h2, h3⟩ := applyNav_inv hinv op
    obtain ⟨c2, g1, g2, g3⟩ := ih h2
    refine ⟨c2, ?_, g2, by rw [g3, h3]⟩
    unfold applyNavs at g1 ⊢
    rw [List.foldlM_cons, h1]
    simpa using g1

theorem select_next_iter {L : Nat} (hL : L ≠ 0) (i : Nat) :
    ∀ k, 1 ≤ k → (select_next L)^[k] (some i) = some (min (i + k) (L - 1)) := by
  intro k hk
  induction k, hk using Nat.le_induction with
  | base => simp [select_next, hL]
  | succ k hk ih =>
    rw [Function.iterate_succ_apply', ih]
    simp only [select_next, if_neg hL]
    congr 1
    omega

theorem select_previous_iter {L : Nat} (hL : L ≠ 0) (i : Nat) :
    ∀ k, (select_previous L)^[k] (some i) = some (i - k) := by
  intro k
  induction k with
  | zero => simp
  | succ k ih =>
    rw [Function.iterate_succ_apply', ih]
    simp only [select_previous, if_neg hL]
    congr 1

/-! ### Decimal serialization lemmas -/

theorem digitChar_isDigit (d : Nat) : (digitChar d).isDigit = true := by
  unfold digitChar
  rcases d with _|_|_|_|_|_|_|_|_|d <;> rfl

theorem digitChar_toNat {d : Nat} (h : d < 10) : (digitChar d).toNat = 48 + d := by
  interval_cases d <;> rfl

theorem natToDigits_ne_nil (n : Nat) : natToDigits n ≠ [] := by
  rw [natToDigits]
  split
  · simp
  · simp

theorem natToDigits_bounds (n : Nat) :
    ∀ c ∈ natToDigits n, 48 ≤ c.toNat ∧ c.toNat ≤ 57 := by
  induction n using Nat.strong_induction_on with
  | _ n ih =>
    intro c hc
    rw [natToDigits] at hc
    split at hc
    · next h =>
      rw [List.mem_singleton] at hc
      subst hc
      rw [digitChar_toNat h]
      omega
    · next h =>
      rw [List.mem_append] at hc
      rcases hc with hc | hc
      · exact ih (n / 10) (Nat.div_lt_self (by omega) (by omega)) c hc
      · rw [List.mem_singleton] at hc
        subst hc
        rw [digitChar_toNat (Nat.mod_lt n (by omega))]
        omega

theorem natToDigits_foldl (n : Nat) :
    (natToDigits n).foldl (fun a c => a * 10 + (c.toNat - 48)) 0 = n := by
  induction n using Nat.strong_induction_on with
  | _ n ih =>
    rw [natToDigits]
    split
    · next h =>
      simp only [List.foldl_cons, List.foldl_nil]
      rw [digitChar_toNat h]
      omega
    · next h =>
      rw [List.foldl_append, ih (n / 10) (Nat.div_lt_self (by omega) (by omega))]
      simp only [List.foldl_cons, List.foldl_nil]
      rw [digitChar_toNat (Nat.mod_lt n (by omega))]
      omega

theorem isWS_of_digit_false {c : Char} (h1 : 48 ≤ c.toNat) (h2 : c.toNat ≤ 57) :
    isWS c = false := by
  simp only [isWS]
  simp only [Bool.or_eq_false_iff, beq_eq_false_iff_ne, ne_eq, Bool.and_eq_false_iff,
    decide_eq_false_iff_not, not_le]
  omega

theorem parseU32_natToDigits {n : Nat} (h : n < 4294967296) :
    parseU32 (natToDigits n) = some n := by
  obtain ⟨c, t, hct⟩ : ∃ c t, natToDigits n = c :: t := by
    cases hnd : natToDigits n with
    | nil => exact absurd hnd (natToDigits_ne_nil n)
    | cons c t => exact ⟨c, t, rfl⟩
  have hc : 48 ≤ c.toNat ∧ c.toNat ≤ 57 :=
    natToDigits_bounds n c (hct ▸ List.mem_cons_self c t)
  have hplus : ((c :: t).head? = some '+') = False := by
    simp only [List.head?_cons, Option.some.injEq, eq_iff_iff, iff_false]
    intro hcp
    rw [hcp] at hc
    exact absurd hc (by decide)
  have hdigits : (natToDigits n).all Char.isDigit = true := by
    rw [List.all_eq_true]
    intro x hx
    have hb := natToDigits_bounds n x hx
    simp only [Char.isDigit, Bool.and_eq_true, decide_eq_true_eq]
    constructor
    · show (48 : UInt32) ≤ x.val
      rw [UInt32.le_def, BitVec.le_def]
      exact hb.1
    · show x.val ≤ (57 : UInt32)
      rw [UInt32.le_def, BitVec.le_def]
      exact hb.2
  unfold parseU32
  rw [hct]
  simp only [hplus, if_false]
  rw [if_neg (List.cons_ne_nil c t), if_pos (hct ▸ hdigits), ← hct, natToDigits_foldl,
    if_pos h]

theorem goodVal_natToDigits (n : Nat) : goodVal (natToDigits n) = true := by
  unfold goodVal
  obtain ⟨c, hc⟩ : ∃ c, (natToDigits n).getLast? = some c := by
    cases hl : (natToDigits n).getLast? with
    | none => rw [List.getLast?_eq_none_iff] at hl; exact absurd hl (natToDigits_ne_nil n)
    | some c => exact ⟨c, rfl⟩
  have hb := natToDigits_bounds n c (mem_of_getLast? hc)
  rw [hc]
  simp only [Bool.and_eq_true, Bool.not_eq_true']
  refine ⟨⟨?_, ?_⟩, isWS_of_digit_false hb.1 hb.2⟩
  · rw [List.isEmpty_eq_false]
    exact natToDigits_ne_nil n
  · rw [List.contains_eq_any_beq]
    rw [List.any_eq_false]
    intro x hx
    have hbx := natToDigits_bounds n x hx
    intro hxe
    rw [← eq_of_beq hxe] at hbx
    exact absurd hbx (by decide)

/-! ### Round-trip lemmas -/

theorem goodVal_spec {v : List Char} (hg : goodVal v = true) :
    v ≠ [] ∧ '\n' ∉ v ∧ ∀ c, v.getLast? = some c → isWS c = false := by
  unfold goodVal at hg
  simp only [Bool.and_eq_true, Bool.not_eq_true'] at hg
  obtain ⟨⟨hne, hcont⟩, hlast⟩ := hg
  refine ⟨by rwa [List.isEmpty_eq_false] at hne, ?_, ?_⟩
  · intro hmem
    rw [List.contains_eq_any_beq, List.any_eq_false] at hcont
    exact hcont '\n' hmem (by simp)
  · intro c hcl
    rw [hcl] at hlast
    simpa using hlast

theorem goodTok_spec {s : List Char} (hg : goodTok s = true) :
    s ≠ [] ∧ ∀ c ∈ s, isWS c = false := by
  unfold goodTok at hg
  simp only [Bool.and_eq_true, Bool.not_eq_true'] at hg
  obtain ⟨hne, hall⟩ := hg
  refine ⟨by rwa [List.isEmpty_eq_false] at hne, ?_⟩
  intro c hcm
  have := List.all_eq_true.mp hall c hcm
  simpa using this

theorem wellFormed_parts {h : Host} (hwf : WellFormedHost h) :
    goodTok h.host_id = true ∧
    h.host_name.all goodVal = true ∧
    h.port.all (fun p => decide (p < 4294967296)) = true ∧
    h.user.all goodVal = true ∧
    h.proxy_jump.all goodVal = true ∧
    h.local_forward.all goodVal = true ∧
    h.id_file.all goodVal = true ∧
    h.expanded = false := by
  unfold WellFormedHost at hwf
  simp only [Bool.and_eq_true, Bool.not_eq_true'] at hwf
  tauto

theorem settingEntries_goodVal {h : Host} (hwf : WellFormedHost h) :
    ∀ e ∈ settingEntries h, goodVal e.2 = true := by
  obtain ⟨_, hn, hp, hu, hj, hl, hf, _⟩ := wellFormed_parts hwf
  intro e he
  unfold settingEntries at he
  simp only [List.mem_append, or_assoc] at he
  rcases he with he | he | he | he | he | he
  · cases hhn : h.host_name with
    | none => rw [hhn] at he; simp at he
    | some v =>
      rw [hhn] at he hn
      simp only [List.mem_singleton] at he
      subst he
      exact hn
  · cases hhp : h.port with
    | none => rw [hhp] at he; simp at he
    | some p =>
      rw [hhp] at he
      simp only [List.mem_singleton] at he
      subst he
      exact goodVal_natToDigits p
  · cases hhu : h.user with
    | none => rw [hhu] at he; simp at he
    | some v =>
      rw [hhu] at he hu
      simp only [List.mem_singleton] at he
      subst he
      exact hu
  · cases hhj : h.proxy_jump with
    | none => rw [hhj] at he; simp at he
    | some v =>
      rw [hhj] at he hj
      simp only [List.mem_singleton] at he
      subst he
      exact hj
  · cases hhl : h.local_forward with
    | none => rw [hhl] at he; simp at he
    | some v =>
      rw [hhl] at he hl
      simp only [List.mem_singleton] at he
      subst he
      exact hl
  · cases hhf : h.id_file with
    | none => rw [hhf] at he; simp at he
    | some v =>
      rw [hhf] at he hf
      simp only [List.mem_singleton] at he
      subst he
      exact hf

theorem parseLoop_entries :
    ∀ (entries : List (SshSetting × List Char)) (n : Nat) (rest : List (List Char))
      (confs : List Host) (h0 : Host),
    (∀ e ∈ entries, goodVal e.2 = true) →
    parseLoop n ((entries.map (fun e => keyOf e.1 ++ ' ' :: e.2)) ++ rest) confs (some h0) =
      parseLoop (n + entries.length) rest confs
        (some (entries.foldl (fun acc e => applySetting e.1 acc e.2) h0)) := by
  intro entries
  induction entries with
  | nil => intro n rest confs h0 _; rfl
  | cons e t ih =>
    intro n rest confs h0 hgood
    obtain ⟨hk1, hk2, hk3, hk4⟩ := keyOf_facts e.1
    obtain ⟨hv1, _, hv3⟩ := goodVal_spec (hgood e (List.mem_cons_self e t))
    rw [List.map_cons, List.cons_append,
      parseLoop_setting hk1 hk2 hk3 hk4 (keyOf_not_hostKW e.1 e.2) hv1 hv3 n
        (t.map (fun e => keyOf e.1 ++ ' ' :: e.2) ++ rest) confs h0,
      ih (n + 1) rest confs (applySetting e.1 h0 e.2)
        (fun x hx => hgood x (List.mem_cons_of_mem e hx)),
      show n + 1 + t.length = n + (e :: t).length by simp [List.length_cons]; omega,
      List.foldl_cons]

theorem settingEntries_foldl {h : Host} (hwf : WellFormedHost h) :
    (settingEntries h).foldl (fun acc e => applySetting e.1 acc e.2)
      ⟨h.host_id, none, none, none, none, none, none, false⟩ = h := by
  obtain ⟨_, hn, hp, hu, hj, hl, hf, hex⟩ := wellFormed_parts hwf
  obtain ⟨id, n1, p1, u1, j1, l1, f1, e1⟩ := h
  simp only at hex
  subst hex
  rcases p1 with _ | p
  · rcases n1 with _ | v1 <;> rcases u1 with _ | v2 <;> rcases j1 with _ | v3 <;>
      rcases l1 with _ | v4 <;> rcases f1 with _ | v5 <;>
      simp [settingEntries, applySetting]
  · have hplt : p < 4294967296 := by simpa using hp
    rcases n1 with _ | v1 <;> rcases u1 with _ | v2 <;> rcases j1 with _ | v3 <;>
      rcases l1 with _ | v4 <;> rcases f1 with _ | v5 <;>
      simp [settingEntries, applySetting, parseU32_natToDigits hplt]

theorem splitNl_append {l : List Char} (h : '\n' ∉ l) (r : List Char) :
    splitNl (l ++ '\n' :: r) = l :: splitNl r := by
  induction l with
  | nil => simp [splitNl]
  | cons c t ih =>
    have hc : c ≠ '\n' := fun he => h (he ▸ List.mem_cons_self c t)
    have ht : '\n' ∉ t := fun hm => h (List.mem_cons_of_mem c hm)
    rw [List.cons_append, splitNl, if_neg hc, ih ht]

theorem splitNl_flatten (ls : List (List Char)) (h : ∀ l ∈ ls, '\n' ∉ l) :
    splitNl ((ls.map (fun l => l ++ ['\n'])).flatten) = ls ++ [[]] := by
  induction ls with
  | nil => rfl
  | cons l t ih =>
    have hl := h l (List.mem_cons_self l t)
    have ht : ∀ x ∈ t, '\n' ∉ x := fun x hx => h x (List.mem_cons_of_mem l hx)
    rw [List.map_cons, List.flatten_cons, List.append_assoc,
      show ([('\n' : Char)] ++ (t.map (fun l => l ++ ['\n'])).flatten)
        = '\n' :: (t.map (fun l => l ++ ['\n'])).flatten from rfl,
      splitNl_append hl, ih ht, List.cons_append]

theorem stripCR_eq_self {l : List Char} (h : l.getLast? ≠ some '\r') :
    stripCR l = l := by
  unfold stripCR
  rw [if_neg h]

theorem linesPost_cons_of_ne_nil {l : List Char} {m : List (List Char)} (h : m ≠ []) :
    linesPost (l :: m) = stripCR l :: linesPost m := by
  cases m with
  | nil => exact absurd rfl h
  | cons a t => rfl

theorem linesPost_append_empty (ls : List (List Char))
    (h : ∀ l ∈ ls, l.getLast? ≠ some '\r') :
    linesPost (ls ++ [[]]) = ls := by
  induction ls with
  | nil => rfl
  | cons l t ih =>
    have hl := h l (List.mem_cons_self l t)
    have ht : ∀ x ∈ t, x.getLast? ≠ some '\r' := fun x hx => h x (List.mem_cons_of_mem l hx)
    rw [List.cons_append, linesPost_cons_of_ne_nil (by simp), stripCR_eq_self hl, ih ht]

theorem rustLines_serialized (ls : List (List Char))
    (h1 : ∀ l ∈ ls, '\n' ∉ l) (h2 : ∀ l ∈ ls, l.getLast? ≠ some '\r') :
    rustLines ((ls.map (fun l => l ++ ['\n'])).flatten) = ls := by
  unfold rustLines
  rw [splitNl_flatten ls h1, linesPost_append_empty ls h2]

theorem hostLines_good {h : Host} (hwf : WellFormedHost h) :
    ∀ l ∈ hostLines h, '\n' ∉ l ∧ l.getLast? ≠ some '\r' := by
  obtain ⟨hid, _⟩ := wellFormed_parts hwf
  obtain ⟨hid1, hid2⟩ := goodTok_spec hid
  intro l hl
  unfold hostLines at hl
  rcases List.mem_cons.mp hl with hl | hl
  · subst hl
    constructor
    · intro hmem
      rcases List.mem_append.mp hmem with hm | hm
      · rw [hostKW_chars] at hm
        simp at hm
      · exact absurd (hid2 '\n' hm) (by decide)
    · rw [List.getLast?_append_of_ne_nil _ hid1]
      intro hcl
      exact absurd (hid2 '\r' (mem_of_getLast? hcl)) (by decide)
  · obtain ⟨e, he, hle⟩ := List.mem_map.mp hl
    subst hle
    obtain ⟨hv1, hv2, hv3⟩ := goodVal_spec (settingEntries_goodVal hwf e he)
    constructor
    · intro hmem
      rcases List.mem_append.mp hmem with hm | hm
      · obtain ⟨_, hk2, _, _⟩ := keyOf_facts e.1
        exact absurd (hk2 '\n' hm) (by decide)
      · rcases List.mem_cons.mp hm with hm | hm
        · exact absurd hm (by decide)
        · exact hv2 hm
    · rw [List.getLast?_append_of_ne_nil _ (List.cons_ne_nil ' ' e.2),
        getLast?_cons_of_ne_nil hv1]
      intro hcl
      exact absurd (hv3 '\r' hcl) (by decide)

theorem parseLoop_block {h : Host} (hwf : WellFormedHost h)
    (n : Nat) (rest : List (List Char)) (confs : List Host) (cur : Option Host) :
    parseLoop n (hostLines h ++ rest) confs cur =
      parseLoop (n + (hostLines h).length) rest (confs ++ cur.toList) (some h) := by
  obtain ⟨hid, _⟩ := wellFormed_parts hwf
  obtain ⟨hid1, hid2⟩ := goodTok_spec hid
  unfold hostLines
  rw [List.cons_append, parseLoop_host hid1 hid2 n _ confs cur,
    parseLoop_entries (settingEntries h) (n + 1) rest (confs ++ cur.toList)
      ⟨h.host_id, none, none, none, none, none, none, false⟩ (settingEntries_goodVal hwf),
    settingEntries_foldl hwf]
  congr 1
  simp [List.length_cons, List.length_map]
  omega

theorem parseLoop_blocks :
    ∀ (hs : List Host), (∀ h ∈ hs, WellFormedHost h) →
    ∀ (n : Nat) (confs : List Host) (cur : Option Host),
    ∃ confs2 cur2,
      parseLoop n ((hs.map hostLines).flatten) confs cur = some (.ok (confs2, cur2)) ∧
      confs2 ++ cur2.toList = confs ++ cur.toList ++ hs := by
  intro hs
  induction hs with
  | nil =>
    intro _ n confs cur
    exact ⟨confs, cur, rfl, by simp⟩
  | cons h t ih =>
    intro hwf n confs cur
    have hwh := hwf h (List.mem_cons_self h t)
    have hwt : ∀ x ∈ t, WellFormedHost x := fun x hx => hwf x (List.mem_cons_of_mem h hx)
    obtain ⟨confs2, cur2, heq, hcat⟩ :=
      ih hwt (n + (hostLines h).length) (confs ++ cur.toList) (some h)
    refine ⟨confs2, cur2, ?_, ?_⟩
    · rw [List.map_cons, List.flatten_cons, parseLoop_block hwh n _ confs cur, heq]
    · rw [hcat]
      simp

/-! ## Claim theorems -/

/-- **C1** (cursor invariant): for every sequence of navigation operations
(`select_next`, `select_previous`, `select_first`, `select_last`,
`clear_selection`, `toggle_expand`) applied to a collection satisfying the
cursor invariant, no step panics, the invariant is preserved — whenever
the cursor is `Some i`, `i` indexes a valid element — the host list
length is unchanged, and on an empty host list the cursor ends `None`. -/
theorem c1_cursor_invariant (c : SshConf) (ops : List NavOp) (hinv : SelInv c) :
    ∃ c', applyNavs ops c = some c' ∧ SelInv c' ∧
      c'.confs.length = c.confs.length ∧ (c.confs = [] → c'.state.selected = none) := by
  obtain ⟨c', h1, h2, h3⟩ := applyNavs_inv ops hinv
  refine ⟨c', h1, h2, h3, ?_⟩
  intro hnil
  have hlen : c'.confs.length = 0 := by rw [h3, hnil]; rfl
  unfold SelInv at h2
  cases hsel : c'.state.selected with
  | none => rfl
  | some i =>
    rw [hsel] at h2
    omega

/-- Witness for C1: a concrete navigation sequence on the empty
collection. -/
theorem c1_witness :
    ∃ c', applyNavs [NavOp.next, NavOp.previous, NavOp.toggleExpand]
        ⟨[], ListState.default⟩ = some c' ∧ SelInv c' ∧
      c'.confs.length = (⟨[], ListState.default⟩ : SshConf).confs.length ∧
      ((⟨[], ListState.default⟩ : SshConf).confs = [] → c'.state.selected = none) :=
  c1_cursor_invariant ⟨[], ListState.default⟩
    [NavOp.next, NavOp.previous, NavOp.toggleExpand] (by decide)

/-- **C2** (select_next contract and navigation boundedness): on a
non-empty list of length `L`, `select_next` maps `None` to index 0 and
`Some i` to `min (i+1) (L-1)` without wrapping; iterating `select_next`
at least `L` times reaches and stays at `L-1` from any starting cursor,
iterating `select_previous` eventually reaches and stays at 0, and both
operations leave the cursor unchanged on an empty list. -/
theorem c2_navigation_boundedness :
    (∀ L : Nat, L ≠ 0 → select_next L none = some 0) ∧
    (∀ L i : Nat, L ≠ 0 → select_next L (some i) = some (min (i + 1) (L - 1))) ∧
    (∀ (L : Nat) (c0 : Option Nat), L ≠ 0 → ∀ k, L ≤ k →
      (select_next L)^[k] c0 = some (L - 1)) ∧
    (∀ (L : Nat) (c0 : Option Nat), L ≠ 0 → ∃ N, ∀ k, N ≤ k →
      (select_previous L)^[k] c0 = some 0) ∧
    (∀ c0 : Option Nat, select_next 0 c0 = c0 ∧ select_previous 0 c0 = c0) := by
  refine ⟨?_, ?_, ?_, ?_, ?_⟩
  · intro L hL; simp [select_next, hL]
  · intro L i hL; simp [select_next, hL]
  · intro L c0 hL k hk
    cases c0 with
    | some i =>
      rw [select_next_iter hL i k (by omega)]
      congr 1
      omega
    | none =>
      cases k with
      | zero => omega
      | succ m =>
        rw [Function.iterate_succ_apply,
          show select_next L none = some 0 by simp [select_next, hL]]
        cases m with
        | zero =>
          simp only [Function.iterate_zero_apply]
          rw [show L = 1 by omega]
        | succ m2 =>
          rw [select_next_iter hL 0 (m2 + 1) (by omega)]
          congr 1
          omega
  · intro L c0 hL
    cases c0 with
    | some i =>
      refine ⟨i, fun k hk => ?_⟩
      rw [select_previous_iter hL i k]
      congr 1
      omega
    | none =>
      refine ⟨L, fun k hk => ?_⟩
      cases k with
      | zero => omega
      | succ m =>
        rw [Function.iterate_succ_apply,
          show select_previous L none = some (L - 1) by simp [select_previous, hL],
          select_previous_iter hL (L - 1) m]
        congr 1
        omega
  · intro c0
    exact ⟨by simp [select_next], by simp [select_previous]⟩

/-- **C6** (round-trip on well-formed input): serializing any list of
well-formed host records into `Host <host_id>` lines followed by one
`<Key> <value>` line per present optional field and parsing the result
yields exactly the same records, with identical field values, in the
original order (well-formed: single-token id, non-empty values with no
newline or trailing whitespace, `u32`-range port, `expanded` at its
parse-time default). -/
theorem c6_round_trip (hs : List Host) (hwf : ∀ h ∈ hs, WellFormedHost h) :
    SshConf.parse (serializeHosts hs) =
      some (.ok { confs := hs, state := ListState.default }) := by
  unfold SshConf.parse serializeHosts
  have hlines : ∀ l ∈ (hs.map hostLines).flatten, '\n' ∉ l ∧ l.getLast? ≠ some '\r' := by
    intro l hl
    obtain ⟨block, hb, hlb⟩ := List.mem_flatten.mp hl
    obtain ⟨h, hh, hbh⟩ := List.mem_map.mp hb
    subst hbh
    exact hostLines_good (hwf h hh) l hlb
  rw [rustLines_serialized _ (fun l hl => (hlines l hl).1) (fun l hl => (hlines l hl).2)]
  obtain ⟨confs2, cur2, heq, hcat⟩ := parseLoop_blocks hs hwf 0 [] none
  rw [heq]
  simp only [List.nil_append, Option.toList_none, List.append_nil] at hcat
  show some (Except.ok ({ confs := confs2 ++ cur2.toList,
                          state := ListState.default } : SshConf)) = _
  rw [hcat]

/-- Witness for C6: round-tripping the two records of the concrete
scenario. -/
theorem c6_witness :
    SshConf.parse (serializeHosts
        [⟨"alpha".data, some "10.0.0.1".data, some 2222, none, none, none, none, false⟩,
         ⟨"beta".data, none, none, some "root".data, none, none, none, false⟩]) =
      some (.ok { confs :=
                    [⟨"alpha".data, some "10.0.0.1".data, some 2222, none, none, none, none,
                       false⟩,
                     ⟨"beta".data, none, none, some "root".data, none, none, none, false⟩],
                  state := ListState.default }) :=
  c6_round_trip _ (by decide)

/-- Witness for C2: the contract and convergence at concrete lengths and
cursors. -/
theorem c2_witness :
    select_next 2 none = some 0 ∧
    select_next 2 (some 0) = some (min 1 1) ∧
    (select_next 2)^[5] (some 0) = some 1 ∧
    (∃ N, ∀ k, N ≤ k → (select_previous 2)^[k] (some 1) = some 0) ∧
    select_next 0 (some 7) = some 7 :=
  ⟨c2_navigation_boundedness.1 2 (by decide),
   c2_navigation_boundedness.2.1 2 0 (by decide),
   c2_navigation_boundedness.2.2.1 2 (some 0) (by decide) 5 (by decide),
   c2_navigation_boundedness.2.2.2.1 2 (some 1) (by decide),
   (c2_navigation_boundedness.2.2.2.2 (some 7)).1⟩

/-- **C7** (orphan setting rejection): whenever the line list of the input
text starts with skipped lines (blank or comment after trimming) followed
by a line that is non-blank, no comment, and no `Host ` line, `parse`
returns `ParseError` with message "Setting outside of Host block" at that
line's 1-based ordinal counted over all original lines. -/
theorem c7_orphan_setting (content : List Char) (pre : List (List Char))
    (l : List Char) (rest : List (List Char))
    (hsplit : rustLines content = pre ++ l :: rest)
    (hpre : ∀ r ∈ pre, trim r = [] ∨ (trim r).head? = some '#')
    (h1 : trim l ≠ []) (h2 : (trim l).head? ≠ some '#')
    (h3 : ¬ hostKW <+: trim l) :
    SshConf.parse content =
      some (.error (.ParseError (pre.length + 1) "Setting outside of Host block")) := by
  unfold SshConf.parse
  rw [hsplit, parseLoop_orphan_after_skips h1 h2 h3 rest [] pre hpre 0,
    show 0 + pre.length + 1 = pre.length + 1 by omega]

/-- Witness for C7: the spec's concrete scenario — the input whose first
line is `Foo bar` yields `ParseError(1, "Setting outside of Host block")`. -/
theorem c7_witness :
    SshConf.parse "Foo bar".data =
      some (.error (.ParseError 1 "Setting outside of Host block")) :=
  c7_orphan_setting "Foo bar".data [] "Foo bar".data [] rfl
    (by simp) (by decide) (by decide) (by decide)

/-- **C9** (concrete parse scenario): the five-line example parses to the
two records `alpha` (host_name, port set) and `beta` (user set), in
order, with all other optional fields absent. -/
theorem c9_concrete_scenario :
    SshConf.parse
        "Host alpha\n    HostName 10.0.0.1\n    Port 2222\nHost beta\n    User root".data =
      some (.ok
        { confs :=
            [⟨"alpha".data, some "10.0.0.1".data, some 2222, none, none, none, none, false⟩,
             ⟨"beta".data, none, none, some "root".data, none, none, none, false⟩],
          state := ListState.default }) := by decide

/-- Counterexample for **C4**: contrary to the claim, a line beginning
`host ` does not open a `Host` block — the `Host ` prefix test is
case-sensitive, so `host alpha` is treated as an orphan setting line and
parsing errors instead of producing a record named `alpha`. -/
theorem c4_counterexample :
    SshConf.parse "host alpha".data =
      some (.error (.ParseError 1 "Setting outside of Host block")) := by decide

/-- **C4** (amended): setting keys are matched case-insensitively — the
key is lowercased before matching, so `from_str` depends only on the
lowercased key and `HOSTNAME x` assigns `host_name` — but the `Host`
keyword is case-sensitive: a trimmed line starting `HOST ` (or `host `)
does not open a block and is treated as a setting line. -/
theorem c4_keys_insensitive_hostkw_sensitive :
    (∀ s t : List Char, s.map Char.toLower = t.map Char.toLower →
      SshSetting.from_str s = SshSetting.from_str t) ∧
    SshConf.parse "Host a\nHOSTNAME x".data =
      some (.ok { confs := [⟨"a".data, some "x".data, none, none, none, none, none, false⟩],
                  state := ListState.default }) ∧
    SshConf.parse "HOST alpha".data =
      some (.error (.ParseError 1 "Setting outside of Host block")) := by
  refine ⟨?_, by decide, by decide⟩
  intro s t h
  unfold SshSetting.from_str
  rw [h]

/-- Witness for C4: the case-insensitivity part applied to the concrete
keys `PORT` and `port`. -/
theorem c4_witness :
    SshSetting.from_str "PORT".data = SshSetting.from_str "port".data :=
  c4_keys_insensitive_hostkw_sensitive.1 "PORT".data "port".data (by decide)

/-- Counterexample for **C5**: contrary to the claim, the value is not
stripped of the whitespace run — after `HostName` followed by two spaces,
the stored `host_name` is `" x"` (with a leading space), not `"x"`. -/
theorem c5_counterexample :
    SshConf.parse "Host a\nHostName  x".data =
      some (.ok { confs := [⟨"a".data, some (' ' :: "x".data), none, none, none, none, none,
                             false⟩],
                  state := ListState.default }) ∧
    (' ' :: "x".data) ≠ "x".data := by decide

/-- **C5** (amended): a setting line is split at the *first whitespace
character* into key and value — the stored value is everything after that
single character, so later whitespace of the run stays in the value; a
trimmed line with no whitespace at all yields exactly one part and
`ParseError` "Invalid config line format" at that line. -/
theorem c5_split_first_ws_char :
    (∀ (k v : List Char) (c : Char), (∀ a ∈ k, isWS a = false) → isWS c = true →
      splitn2ws (k ++ c :: v) = [k, v]) ∧
    (∀ l : List Char, (∀ a ∈ l, isWS a = false) → splitn2ws l = [l]) ∧
    (∀ (n : Nat) (rest : List (List Char)) (confs : List Host) (h0 : Host) (l : List Char),
      l ≠ [] → l.head? ≠ some '#' → (∀ a ∈ l, isWS a = false) →
      parseLoop n (l :: rest) confs (some h0) =
        some (.error (.ParseError (n + 1) "Invalid config line format"))) ∧
    SshConf.parse "Host a\nHostName  x".data =
      some (.ok { confs := [⟨"a".data, some (' ' :: "x".data), none, none, none, none, none,
                             false⟩],
                  state := ListState.default }) := by
  refine ⟨fun k v c hk hc => splitn2ws_key_val hk hc, fun l h => splitn2ws_no_ws h,
    ?_, by decide⟩
  intro n rest confs h0 l hne hhash hws
  have htrim : trim l = l := trim_eq_self_of_no_ws hws
  rw [parseLoop.eq_def]
  simp only [htrim]
  rw [if_neg (by rintro (h | h); exacts [hne h, hhash h]),
    if_neg (no_ws_not_hostKW hws), splitn2ws_no_ws hws]

/-- Witness for C5: the amended split and error behaviour at concrete
inputs (`ab c`, a no-whitespace key line `Frob`). -/
theorem c5_witness :
    splitn2ws ("ab".data ++ ' ' :: "c".data) = ["ab".data, "c".data] ∧
    parseLoop 0 ["Frob".data] [] (some ⟨"a".data, none, none, none, none, none, none, false⟩)
      = some (.error (.ParseError 1 "Invalid config line format")) :=
  ⟨c5_split_first_ws_char.1 "ab".data "c".data ' ' (by decide) (by decide),
   c5_split_first_ws_char.2.2.1 0 [] [] ⟨"a".data, none, none, none, none, none, none, false⟩
     "Frob".data (by decide) (by decide) (by decide)⟩

/-- **C3** (terminal restoration — violated by the code): parsing failure
is an exit path on which the terminal is *not* restored: with the config
content `Foo bar`, `main` returns its error after `enable_raw_mode` /
`EnterAlternateScreen` but before `disable_raw_mode` /
`LeaveAlternateScreen` — the `?` on `app.read_ssh_conf()` skips the
restore code, leaving raw mode and the alternate screen active. -/
theorem c3_raw_mode_leak :
    (mainModel "Foo bar".data (.error ())).1.raw_mode = true ∧
    (mainModel "Foo bar".data (.error ())).1.alt_screen = true ∧
    (mainModel "Foo bar".data (.error ())).2 = MainExit.errExit := by decide

/-- Counterexample for **C10**: the claimed panic scenario does not occur —
on an empty host list a navigation key leaves the cursor `None` (the
modelled `select_next` is a no-op on an empty list), so `Enter` takes the
no-selection path rather than indexing out of bounds. -/
theorem c10_counterexample :
    applyNavs [NavOp.next] ⟨[], ListState.default⟩ = some ⟨[], ListState.default⟩ ∧
    App.confirm ⟨[], ListState.default⟩ = ConfirmResult.noSelection := by decide

/-- **C10** (amended): the Enter handler indexes the host list with the
cursor without a bounds check — `confirm` panics on any state whose
cursor is `Some i` with `i ≥ length` — but under the cursor invariant
such states do not arise, and with no cursor `confirm` yields the
no-selection outcome instead of panicking. -/
theorem c10_unchecked_index :
    (∀ (c : SshConf) (i : Nat), c.state.selected = some i → c.confs.length ≤ i →
      App.confirm c = ConfirmResult.panic) ∧
    (∀ c : SshConf, SelInv c → App.confirm c ≠ ConfirmResult.panic) ∧
    (∀ c : SshConf, c.state.selected = none → App.confirm c = ConfirmResult.noSelection) := by
  refine ⟨?_, ?_, ?_⟩
  · intro c i hsel hle
    unfold App.confirm
    rw [hsel]
    show (if h : i < c.confs.length then
            ConfirmResult.chosen (c.confs.get ⟨i, h⟩).host_id
          else ConfirmResult.panic) = ConfirmResult.panic
    rw [dif_neg (by omega)]
  · intro c hinv
    unfold App.confirm
    unfold SelInv at hinv
    cases hsel : c.state.selected with
    | none => simp
    | some i =>
      rw [hsel] at hinv
      have hlt : i < c.confs.length := hinv
      show (if h : i < c.confs.length then
              ConfirmResult.chosen (c.confs.get ⟨i, h⟩).host_id
            else ConfirmResult.panic) ≠ ConfirmResult.panic
      rw [dif_pos hlt]
      simp
  · intro c hsel
    unfold App.confirm
    rw [hsel]

/-- Witness for C10: concrete instances — a forged out-of-bounds cursor
panics, while invariant-respecting states never do. -/
theorem c10_witness :
    App.confirm ⟨[], { offset := 0, selected := some 0 }⟩ = ConfirmResult.panic ∧
    App.confirm ⟨[], ListState.default⟩ ≠ ConfirmResult.panic ∧
    App.confirm ⟨[], ListState.default⟩ = ConfirmResult.noSelection :=
  ⟨c10_unchecked_index.1 ⟨[], { offset := 0, selected := some 0 }⟩ 0 rfl (by decide),
   c10_unchecked_index.2.1 ⟨[], ListState.default⟩ (by decide),
   c10_unchecked_index.2.2 ⟨[], ListState.default⟩ rfl⟩

/-- **C8** (port tolerance): inside an open `Host` block, a `Port` line
whose value does not parse as an unsigned integer never makes `parse`
error — the loop continues with the record's `port` field set to `None`,
overwriting any earlier numeric value; concretely, `Port 2222` followed
by `Port abc` leaves `port` absent. -/
theorem c8_port_tolerance :
    (∀ (n : Nat) (rest : List (List Char)) (confs : List Host) (h0 : Host) (v : List Char),
      v ≠ [] → (∀ c, v.getLast? = some c → isWS c = false) → parseU32 v = none →
      parseLoop n (("Port ".data ++ v) :: rest) confs (some h0) =
        parseLoop (n + 1) rest confs (some { h0 with port := none })) ∧
    SshConf.parse "Host a\nPort 2222\nPort abc".data =
      some (.ok { confs := [⟨"a".data, none, none, none, none, none, none, false⟩],
                  state := ListState.default }) := by
  refine ⟨?_, by decide⟩
  intro n rest confs h0 v hne hlast hp
  have hline : "Port ".data ++ v = keyOf SshSetting.Port ++ ' ' :: v := rfl
  rw [hline]
  obtain ⟨hk1, hk2, hk3, hk4⟩ := keyOf_facts SshSetting.Port
  rw [parseLoop_setting hk1 hk2 hk3 hk4 (keyOf_not_hostKW SshSetting.Port v) hne hlast
    n rest confs h0]
  have happ : applySetting SshSetting.Port h0 v = { h0 with port := none } := by
    simp only [applySetting]
    rw [hp]
  rw [happ]

/-- Witness for C8: the tolerance equation applied at the concrete
non-numeric value `abc`. -/
theorem c8_witness :
    parseLoop 0 [("Port ".data ++ "abc".data)] [] (some ⟨"a".data, some "n".data, some 22,
        none, none, none, none, false⟩) =
      parseLoop 1 [] [] (some ⟨"a".data, some "n".data, none, none, none, none, none,
        false⟩) :=
  c8_port_tolerance.1 0 [] [] ⟨"a".data, some "n".data, some 22, none, none, none, none,
    false⟩ "abc".data (by decide) (by decide) (by decide)

end Ssui
